import Mathlib

/-!
Verification of the SCRAM probabilistic-risk-analysis core.

The analytical core (preprocessor, MOCUS cut-set engine, probability
calculator, fault-tree container, analysis driver) is embedded shallowly.
The repository slice at hand contains the public headers
(`src/risk_analysis.h`, `src/reporter.h`) and the test suite
(`tests/bench_core_tests.cc`, `tests/fault_tree_tests.cc`, ...); the
implementation translation units are absent, so the engine definitions
below are modelled from the specification, with the expected behavior
pinned by the benchmark tests.

Literals are encoded as natural numbers: the positive literal of basic
event `i` is `2*i`, the negated literal is `2*i+1` (the engine numbers
basic events and stores signed literals as ids, sorted ascending).
A cut set is a finite set of literal codes; a cut-set collection is a
finite set of cut sets.
-/

namespace Scram

/-- Gate operators of a formula: AND, OR, XOR, NOT, NAND, NOR, NULL
(pass-through) and ATLEAST with its integer threshold `k`. -/
inductive Op where
  | and | or | xor | not | nand | nor | null
  | atleast (k : Nat)
deriving DecidableEq, Repr

mutual
/-- Modelled from the spec: the in-memory event graph of §3 restricted to
what reaches the cut-set engine (the implementation's model and working
graph are absent from the slice).  A node is a basic event (by index), a
house event (a fixed Boolean constant), or a gate holding an operator and
an ordered argument list. -/
inductive FTree where
  | basic (i : Nat)
  | house (b : Bool)
  | gate (op : Op) (args : FList)
deriving DecidableEq

/-- Argument lists of a gate (a mutual inductive companion of `FTree`). -/
inductive FList where
  | nil
  | cons (t : FTree) (ts : FList)
deriving DecidableEq
end

/-- Embeds a Lean list of subtrees as a gate argument list. -/
def FList.ofList : List FTree → FList
  | [] => .nil
  | t :: ts => .cons t (FList.ofList ts)

/-- Convenience constructor: a gate from a Lean list of arguments. -/
def gateL (op : Op) (l : List FTree) : FTree :=
  .gate op (FList.ofList l)

/-- Boolean semantics of one operator applied to evaluated arguments:
AND/OR/NOT/NAND/NOR as usual, XOR is n-ary parity (the pairwise
`(A ∧ ¬B) ∨ (¬A ∧ B)` expansion folded over the argument list), NULL is
pass-through of its single argument, ATLEAST(k) holds when at least `k`
arguments hold. -/
def applyOp (op : Op) (vals : List Bool) : Bool :=
  match op with
  | .and => vals.all id
  | .or => vals.any id
  | .xor => vals.foldr Bool.xor false
  | .not => !(vals.all id)
  | .nand => !(vals.all id)
  | .nor => !(vals.any id)
  | .null => vals.all id
  | .atleast k => decide (k ≤ (vals.filter id).length)

mutual
/-- Boolean function computed by a fault-tree node under an assignment of
the basic events (house events are constants). -/
def evalT (σ : Nat → Bool) : FTree → Bool
  | .basic i => σ i
  | .house b => b
  | .gate op args => applyOp op (evalL σ args)

/-- Evaluation of every member of a gate argument list. -/
def evalL (σ : Nat → Bool) : FList → List Bool
  | .nil => []
  | .cons t ts => evalT σ t :: evalL σ ts
end

mutual
/-- Indices of the basic events appearing in a tree. -/
def varsT : FTree → Finset Nat
  | .basic i => {i}
  | .house _ => ∅
  | .gate _ args => varsL args

/-- Indices of the basic events appearing in an argument list. -/
def varsL : FList → Finset Nat
  | .nil => ∅
  | .cons t ts => varsT t ∪ varsL ts
end

/-- A cut set: a finite set of signed literal codes (`2*i` for basic
event `i`, `2*i+1` for its negation), kept sorted ascending by the
`Finset` representation. -/
abbrev CutSet : Type := Finset Nat

/-- The literal code complementary to `l` (toggles the sign bit). -/
def lcompl (l : Nat) : Nat :=
  if l % 2 = 0 then l + 1 else l - 1

/-- A candidate cut set is consistent when it contains no complementary
pair of literals `x` and `¬x`; an inconsistent candidate absorbs to FALSE
and is dropped. -/
def consistentB (C : CutSet) : Bool :=
  decide (∀ l ∈ C, lcompl l ∉ C)

/-- Modelled from the spec: preprocessing performs constant folding to a
fixed point, and rewrites preserve the Boolean function; a top whose
function is constantly TRUE reduces to the constant TRUE.  Decidable by
checking every assignment of the (finitely many) basic events of the
tree. -/
def isConstTrue (t : FTree) : Bool :=
  decide (∀ A ∈ (varsT t).powerset, evalT (fun i => decide (i ∈ A)) t = true)

/-- Modelled from the spec: dually, a top whose function is constantly
FALSE reduces to the constant FALSE. -/
def isConstFalse (t : FTree) : Bool :=
  decide (∀ A ∈ (varsT t).powerset, evalT (fun i => decide (i ∈ A)) t = false)

/-- AND-combination of two candidate collections: every union of a set
from the first with a set from the second (a MOCUS AND step merges
argument literals into the candidate). -/
def andComb (X Y : Finset CutSet) : Finset CutSet :=
  X.biUnion (fun A => Y.image (fun B => A ∪ B))

/-- AND-combination over a list of collections (`{∅}`, i.e. TRUE, for the
empty list). -/
def bigAnd (l : List (Finset CutSet)) : Finset CutSet :=
  l.foldr andComb {∅}

/-- OR-combination over a list of collections: a MOCUS OR step forks one
successor candidate per argument (`∅`, i.e. FALSE, for the empty list). -/
def bigOr (l : List (Finset CutSet)) : Finset CutSet :=
  l.foldr (· ∪ ·) ∅

/-- Parity fold for XOR over argument expansions given as
(positive, negative) pairs: returns the (odd, even) parity collections,
the folded form of the pairwise `(A ∧ ¬B) ∨ (¬A ∧ B)` expansion. -/
def xorFold (l : List (Finset CutSet × Finset CutSet)) :
    Finset CutSet × Finset CutSet :=
  l.foldr
    (fun x p => (andComb x.1 p.2 ∪ andComb x.2 p.1,
                 andComb x.1 p.1 ∪ andComb x.2 p.2))
    (∅, {∅})

/-- ATLEAST(k, args) expansion: fork one successor per k-combination of
the arguments, each combination becoming an AND. -/
def atleastComb (k : Nat) (l : List (Finset CutSet)) : Finset CutSet :=
  bigOr ((l.sublistsLen k).map bigAnd)

/-- Expansion of one operator over the (positive, negative) expansions of
its arguments; returns the (positive, negative) expansions of the gate.
Negation uses De Morgan (swap the polarity components); XOR uses the
parity fold; a negated ATLEAST(k) of `n` arguments is ATLEAST(n-k+1) of
the negated arguments; NULL passes through; NOT of its single argument
coincides with NAND. -/
def expandOp (op : Op) (exps : List (Finset CutSet × Finset CutSet)) :
    Finset CutSet × Finset CutSet :=
  let ps := exps.map Prod.fst
  let ns := exps.map Prod.snd
  match op with
  | .and => (bigAnd ps, bigOr ns)
  | .or => (bigOr ps, bigAnd ns)
  | .not => (bigOr ns, bigAnd ps)
  | .nand => (bigOr ns, bigAnd ps)
  | .nor => (bigAnd ns, bigOr ps)
  | .null => (bigAnd ps, bigOr ns)
  | .xor => xorFold exps
  | .atleast k => (atleastComb k ps, atleastComb (exps.length - k + 1) ns)

mutual
/-- Modelled from the spec: MOCUS-style top-down expansion (the engine
implementation is absent from the slice).  Computes for a node the pair
of candidate cut-set collections of the node and of its negation:
a basic event yields its positive (resp. negative) literal, a house
event folds to TRUE or FALSE, a gate combines the expansions of its
arguments by `expandOp`. -/
def expandT : FTree → Finset CutSet × Finset CutSet
  | .basic i => ({{2 * i}}, {{2 * i + 1}})
  | .house b => (if b then {∅} else ∅, if b then ∅ else {∅})
  | .gate op args => expandOp op (expandL args)

/-- Expansions of every member of a gate argument list. -/
def expandL : FList → List (Finset CutSet × Finset CutSet)
  | .nil => []
  | .cons t ts => expandT t :: expandL ts
end

/-- A negative literal `l` of candidate `C` is reducible against the
emitted collection `S` when some emitted set is covered by
`(C \ {l}) ∪ {¬l}`: then `C \ {l}` can replace `C` without changing the
disjunction (the identity `x ∨ (¬x ∧ y) = x ∨ y`); negative literals are
retained only when irreducible. -/
def reducibleB (S : Finset CutSet) (C : CutSet) (l : Nat) : Bool :=
  decide (l % 2 = 1) && decide (∃ D ∈ S, D ⊆ (C.erase l) ∪ {l - 1})

/-- Removes reducible negative literals from one candidate, lowest id
first; the fuel argument bounds the recursion by the candidate size. -/
def reduceCutF : Nat → Finset CutSet → CutSet → CutSet
  | 0, _, C => C
  | n + 1, S, C =>
    let R := C.filter (fun l => reducibleB S C l)
    if h : R.Nonempty then reduceCutF n S (C.erase (R.min' h)) else C

/-- One reduction pass over the whole collection. -/
def reduceStep (S : Finset CutSet) : Finset CutSet :=
  S.image (fun C => reduceCutF C.card S C)

/-- Iterates reduction passes to a fixed point, bounded by fuel. -/
def reduceIter : Nat → Finset CutSet → Finset CutSet
  | 0, S => S
  | n + 1, S =>
    let S2 := reduceStep S
    if S2 = S then S else reduceIter n S2

/-- Fuel that is always sufficient for `reduceIter` to reach its fixed
point (each effective pass removes at least one literal occurrence). -/
def totalFuel (S : Finset CutSet) : Nat :=
  (∑ C ∈ S, C.card) + 1

/-- Subsumption: remove any emitted set that is a proper superset of
another emitted set (idempotent absorption of minimality). -/
def subsume (S : Finset CutSet) : Finset CutSet :=
  S.filter (fun C => ∀ D ∈ S, ¬ D ⊂ C)

mutual
/-- Substitution of basic events by trees, used to model CCF expansion:
each member basic event of a common-cause group is replaced by the
disjunction of the CCF basic events containing it. -/
def substT (f : Nat → FTree) : FTree → FTree
  | .basic i => f i
  | .house b => .house b
  | .gate op args => .gate op (substL f args)

/-- Substitution over a gate argument list. -/
def substL (f : Nat → FTree) : FList → FList
  | .nil => .nil
  | .cons t ts => .cons (substT f t) (substL f ts)
end

/-- Probability of a signed literal: `p i` for the positive literal of
basic event `i`, `1 - p i` for the negated one. -/
def probLit (p : Nat → ℚ) (l : Nat) : ℚ :=
  if l % 2 = 0 then p (l / 2) else 1 - p (l / 2)

/-- Probability of a cut set: the product of its literal probabilities;
a set containing both `x` and `¬x` contributes 0. -/
def probCut (p : Nat → ℚ) (C : CutSet) : ℚ :=
  if consistentB C then ∏ l ∈ C, probLit p l else 0

/-- Modelled from the spec: the rare-event approximation of the
probability calculator (implementation absent from the slice), the sum of
the cut-set probabilities. -/
def rareEvent (p : Nat → ℚ) (S : Finset CutSet) : ℚ :=
  ∑ C ∈ S, probCut p C

/-- Modelled from the spec: the min-cut upper bound (MCUB),
`1 - ∏ (1 - P(C))` over the cut sets. -/
def mcub (p : Nat → ℚ) (S : Finset CutSet) : ℚ :=
  1 - ∏ C ∈ S, (1 - probCut p C)

/-- Modelled from the spec: inclusion–exclusion truncated to `N` sums,
`∑ (-1)^(k+1) ∑_{|T|=k} P(⋂ T)` for `k = 1..N`, each intersection
computed as the product over the literal union (complementary
literals ⇒ 0).  This is the default quantification (`num_sums`
defaults to 7). -/
def probIE (N : Nat) (p : Nat → ℚ) (S : Finset CutSet) : ℚ :=
  ∑ k ∈ Finset.range N,
    (-1 : ℚ) ^ k * ∑ T ∈ S.powersetCard (k + 1), probCut p (T.sup id)

/-- Modelled from the spec: the minimal-cut-set analysis of a top gate
(`FaultTreeAnalysis`; the implementation is absent from the slice).
A top reducing to constant TRUE yields the single empty cut set (UNITY);
a top reducing to constant FALSE yields the empty collection (NULL);
otherwise the MOCUS expansion is pruned of inconsistent candidates,
reducible negative literals are removed, and subsumption keeps only
minimal sets. -/
def minCutSets (t : FTree) : Finset CutSet :=
  if isConstTrue t then {(∅ : CutSet)}
  else if isConstFalse t then (∅ : Finset CutSet)
  else
    let S0 := ((expandT t).1).filter (fun C => consistentB C)
    subsume (reduceIter (totalFuel S0) S0)

/-! Benchmark models from the test suite (basic events `a = 0`, `b = 1`,
`c = 2` with probabilities 0.1, 0.2, 0.3; positive literal of event `i`
is code `2*i`, negative is `2*i+1`). -/

/-- The `abc.xml` benchmark: top gate `OR(a, b, c)`. -/
def abcTree : FTree := gateL .or [.basic 0, .basic 1, .basic 2]

/-- The `ab_bc.xml` benchmark: top gate `OR(AND(a,b), AND(b,c))`. -/
def abBcTree : FTree :=
  gateL .or [gateL .and [.basic 0, .basic 1], gateL .and [.basic 1, .basic 2]]

/-- The `atleast.xml` benchmark: top gate `ATLEAST(2; a, b, c)`. -/
def atleastTree : FTree := gateL (.atleast 2) [.basic 0, .basic 1, .basic 2]

/-- The `a_or_not_a.xml` benchmark: top gate `OR(a, NOT a)` (UNITY). -/
def aOrNotA : FTree := gateL .or [.basic 0, gateL .not [.basic 0]]

/-- The `a_and_not_a.xml` benchmark: top gate `AND(a, NOT a)` (NULL). -/
def aAndNotA : FTree := gateL .and [.basic 0, gateL .not [.basic 0]]

/-- The `a_or_not_ab.xml` benchmark: top gate `OR(a, AND(b, NOT a))`. -/
def aOrNotAB : FTree :=
  gateL .or [.basic 0, gateL .and [.basic 1, gateL .not [.basic 0]]]

/-- The `xor.xml` benchmark: top gate `XOR(a, b, c)`. -/
def xorTree : FTree := gateL .xor [.basic 0, .basic 1, .basic 2]

/-- The benchmark probabilities `p(a) = 0.1`, `p(b) = 0.2`, `p(c) = 0.3`. -/
def pABC : Nat → ℚ := fun i =>
  if i = 0 then 1/10 else if i = 1 then 1/5 else if i = 2 then 3/10 else 0

/-! The beta-factor CCF benchmark (`beta_factor_ccf.xml`; the input file
is absent from the slice, so the model is reconstructed from the
expected minimal cut sets and total probability of the test
`RiskAnalysisTest.BetaFactorCCF`). -/

/-- Modelled from the spec: the beta-factor CCF benchmark before
expansion: three redundant trains, each failing when its pump or its
valve fails (pumps are basic events 0, 1, 2; valves 3, 4, 5).  The
minimal cut sets of this base model are the 8 pump-or-valve choices, one
per train, matching the 8 order-3 cut sets expected by the test. -/
def betaFactorBase : FTree :=
  gateL .and [gateL .or [.basic 0, .basic 3], gateL .or [.basic 1, .basic 4],
              gateL .or [.basic 2, .basic 5]]

/-- Modelled from the spec: the beta-factor CCF expansion.  Each grouped
basic event is replaced by the disjunction of the CCF basic events for
the subsets of its group containing it; under the beta-factor model the
only CCF basic events with non-zero factors are the singletons and the
full group, so pump `i` becomes `OR(pump_i, pumps-total)` (total event
6) and valve `j` becomes `OR(valve_j, valves-total)` (total event 7). -/
def ccfBetaSub : Nat → FTree := fun i =>
  if i < 3 then gateL .or [.basic i, .basic 6] else gateL .or [.basic i, .basic 7]

/-- The beta-factor benchmark model after CCF expansion. -/
def betaFactorTree : FTree := substT ccfBetaSub betaFactorBase

/-- Modelled from the spec: derived beta-factor probabilities.  With
total failure probability `q = 0.1` and `β = 0.2` (reconstructed from
the expected total probability 0.04308 of the test), each singleton CCF
basic event gets `(1-β)q = 0.08` and each full-group event `βq = 0.02`. -/
def pBetaFactor : Nat → ℚ := fun i => if i < 6 then 2/25 else 1/50

/-- The expected minimal cut sets of the beta-factor benchmark: the
whole-pump-group event, the whole-valve-group event, and the 8 order-3
combinations of individual pump and valve CCF events. -/
def betaFactorMcs : Finset CutSet :=
  {{12}, {14}, {6, 8, 10}, {0, 8, 10}, {2, 6, 10}, {4, 6, 8},
   {2, 4, 6}, {0, 2, 10}, {0, 4, 8}, {0, 2, 4}}

/-- Modelled from the spec: one full analysis run on a target: the
minimal cut sets from the Boolean structure, then the probability
quantification over them from the numeric data. -/
def analysisRun (t : FTree) (p : Nat → ℚ) (N : Nat) :
    Finset CutSet × ℚ :=
  (minCutSets t, probIE N p (minCutSets t))

/-- Modelled from the spec: a different CCF factor model (Phi-factor,
MGL, Alpha-factor) over the same group structure changes only the
derived CCF basic-event probabilities, represented here by a different
probability assignment on the same expanded structure. -/
def pPhiFactor : Nat → ℚ := fun i => if i < 6 then 1/20 else 1/100

/-- Error kinds of the analysis (validation, logic, cycle), from §7 of
the specification and `error.h`. -/
inductive AError where
  | validation
  | logic
  | cycle
deriving DecidableEq, Repr

/-- Modelled from the spec: the state of a `RiskAnalysis` instance
(`risk_analysis.cc` is absent from the slice; `risk_analysis.h` declares
`Analyze` with the precondition that the analysis is performed only
once, and the results vector filled by it). -/
structure RiskAnalysisState where
  analyzed : Bool
  results : List (Finset CutSet)
deriving DecidableEq

/-- A freshly constructed `RiskAnalysis`: not yet analyzed, empty
results vector. -/
def initRiskAnalysis : RiskAnalysisState :=
  ⟨false, []⟩

/-- The per-target results computed by one analysis pass: the fault-tree
analysis (minimal cut sets) of each analysis target. -/
def runResults (targets : List FTree) : List (Finset CutSet) :=
  targets.map minCutSets

/-- Modelled from the spec: `RiskAnalysis::Analyze`.  The analysis runs
at most once per instance: a repeated call is a logic error; a first
call marks the instance analyzed and fills the results vector. -/
def Analyze (targets : List FTree) (s : RiskAnalysisState) :
    Except AError RiskAnalysisState :=
  if s.analyzed then .error .logic
  else .ok ⟨true, runResults targets⟩

/-- A reference held by a formula argument: a gate, a primary (basic or
house) event, or a generic `Event` that is neither (the abstract base
used by the `FaultTreeTest.SetupForAnalysis` test). -/
inductive ERef where
  | gate (id : Nat)
  | primary (id : Nat)
  | generic (id : Nat)
deriving DecidableEq, Repr

/-- A gate of a fault tree: its identifier and the references of its
formula arguments. -/
structure GateDef where
  id : Nat
  args : List ERef
deriving DecidableEq, Repr

/-- Modelled from the spec: the `FaultTree` container of gates
(`fault_tree.cc` is absent from the slice; behavior pinned by
`tests/fault_tree_tests.cc`). -/
structure FaultTree where
  gates : List GateDef
deriving DecidableEq, Repr

/-- A gate has a parent when some gate of the tree references it in its
formula arguments. -/
def hasParent (ft : FaultTree) (g : GateDef) : Bool :=
  ft.gates.any (fun g2 => g2.args.any (fun r => decide (r = ERef.gate g.id)))

/-- The top events of a fault tree: its parentless gates. -/
def topGates (ft : FaultTree) : List GateDef :=
  ft.gates.filter (fun g => ! hasParent ft g)

/-- Modelled from the spec: `FaultTree::Validate` enforces a single top
event per analysis target; more than one (or no) parentless gate is a
validation error.  Per the `SetupForAnalysis` test, validation does not
check that referenced events are defined gates or primary events. -/
def Validate (ft : FaultTree) : Except AError Unit :=
  if (topGates ft).length = 1 then .ok () else .error .validation

/-- Whether a reference is to a generic (neither gate nor primary)
event. -/
def isGenericRef : ERef → Bool
  | .generic _ => true
  | _ => false

/-- Modelled from the spec: `FaultTree::SetupForAnalysis` requires every
node referenced by a formula to be a gate or a primary event; a generic
undefined event is a logic error (behavior pinned by
`FaultTreeTest.SetupForAnalysis`). -/
def SetupForAnalysis (ft : FaultTree) : Except AError Unit :=
  if ft.gates.all (fun g => g.args.all (fun r => ! isGenericRef r)) then .ok ()
  else .error .logic

/-- The `FaultTreeTest.MultipleTopEvents` tree: `Top → Middle → Bottom`
plus a second parentless gate `SecondTop`. -/
def multiTopFT : FaultTree :=
  ⟨[⟨0, [ERef.gate 1]⟩, ⟨1, [ERef.gate 2]⟩, ⟨2, []⟩, ⟨3, []⟩]⟩

/-- A fault tree with a single parentless gate. -/
def chainFT : FaultTree :=
  ⟨[⟨0, [ERef.gate 1]⟩, ⟨1, []⟩]⟩

/-- The `FaultTreeTest.SetupForAnalysis` tree: a single top gate whose
formula references a generic event. -/
def goldenFT : FaultTree :=
  ⟨[⟨0, [ERef.generic 1]⟩]⟩

/-! Semantic (product-measure) side. -/

/-- The product-measure weight of an assignment: the basic events in
`A` occur, those outside do not, independently with probabilities `p`. -/
def weight (p : Nat → ℚ) (V : Finset Nat) (A : Finset Nat) : ℚ :=
  ∏ i ∈ V, (if i ∈ A then p i else 1 - p i)

/-- Expectation of a function of the occurring-event set under the
independent product measure over the universe `V`. -/
def Ew (p : Nat → ℚ) (V : Finset Nat) (f : Finset Nat → ℚ) : ℚ :=
  ∑ A ∈ V.powerset, weight p V A * f A

/-- Whether an assignment (the set of occurring basic events) satisfies
a signed literal. -/
def satLitB (A : Finset Nat) (l : Nat) : Bool :=
  if l % 2 = 0 then decide (l / 2 ∈ A) else decide (l / 2 ∉ A)

/-- Whether an assignment satisfies every literal of a cut set. -/
def satCutB (C : CutSet) (A : Finset Nat) : Bool :=
  decide (∀ l ∈ C, satLitB A l = true)

/-- The 0/1 indicator of a cut set being satisfied. -/
def indCut (C : CutSet) (A : Finset Nat) : ℚ :=
  if satCutB C A then 1 else 0

/-- The 0/1 indicator that no cut set of the collection is satisfied,
as the product of the complements. -/
def noneInd (S : Finset CutSet) (A : Finset Nat) : ℚ :=
  ∏ C ∈ S, (1 - indCut C A)

/-- Basic events appearing in a cut set. -/
def varsCut (C : CutSet) : Finset Nat := C.image (· / 2)

/-- Basic events appearing in a collection of cut sets. -/
def varsColl (S : Finset CutSet) : Finset Nat := S.sup varsCut

/-- Modelled from the spec: the exact probability of the disjunction of
the cut sets (the reference value the truncated inclusion–exclusion
converges to), as the measure of the satisfying assignments under the
independent product measure. -/
def exactProb (p : Nat → ℚ) (S : Finset CutSet) : ℚ :=
  Ew p (varsColl S) (fun A => if ∃ C ∈ S, satCutB C A = true then 1 else 0)

/-- Monotonicity (in the occurring-event set) of a function on
assignments. -/
def MonoF (f : Finset Nat → ℚ) : Prop :=
  ∀ A B : Finset Nat, A ⊆ B → f A ≤ f B

/-- The all-one-half probability assignment used by the C6 witness. -/
def pHalf : Nat → ℚ := fun _ => 1/2

/-! Supporting lemmas. -/

/-- A tree whose function is constantly true is recognized by the
constant-folding check. -/
theorem isConstTrue_of_forall (t : FTree) (h : ∀ σ, evalT σ t = true) :
    isConstTrue t = true := by
  simp only [isConstTrue, decide_eq_true_eq]
  intro A _
  exact h _

/-- A tree whose function is constantly false is recognized by the
constant-folding check. -/
theorem isConstFalse_of_forall (t : FTree) (h : ∀ σ, evalT σ t = false) :
    isConstFalse t = true := by
  simp only [isConstFalse, decide_eq_true_eq]
  intro A _
  exact h _

/-- A tree whose function is constantly false is not constantly true. -/
theorem not_isConstTrue_of_forall (t : FTree) (h : ∀ σ, evalT σ t = false) :
    isConstTrue t = false := by
  simp only [isConstTrue, decide_eq_false_iff_not]
  intro hall
  have h1 := hall ∅ (Finset.empty_mem_powerset _)
  have h2 := h (fun i => decide (i ∈ (∅ : Finset Nat)))
  rw [h1] at h2
  exact Bool.noConfusion h2

/-- The minimal cut sets of a constantly-true top: the single empty set. -/
theorem minCutSets_of_constTrue (t : FTree) (h : ∀ σ, evalT σ t = true) :
    minCutSets t = {(∅ : CutSet)} := by
  unfold minCutSets
  rw [isConstTrue_of_forall t h]
  simp

/-- The minimal cut sets of a constantly-false top: the empty collection. -/
theorem minCutSets_of_constFalse (t : FTree) (h : ∀ σ, evalT σ t = false) :
    minCutSets t = (∅ : Finset CutSet) := by
  unfold minCutSets
  rw [not_isConstTrue_of_forall t h, isConstFalse_of_forall t h]
  simp

/-- Inclusion–exclusion over the single empty cut set evaluates to 1. -/
theorem probIE_singleton_empty (N : Nat) (p : Nat → ℚ) (hN : 1 ≤ N) :
    probIE N p {(∅ : CutSet)} = 1 := by
  unfold probIE
  rw [Finset.sum_eq_single_of_mem 0 (Finset.mem_range.mpr hN)]
  · have h1 : ({(∅ : CutSet)} : Finset CutSet).powersetCard 1 = {{∅}} := by
      decide
    rw [h1, Finset.sum_singleton]
    have h2 : (({∅} : Finset CutSet).sup id) = (∅ : CutSet) := by decide
    rw [h2]
    simp [probCut, consistentB]
  · intro k _ hk
    have hc : ({(∅ : CutSet)} : Finset CutSet).card < k + 1 := by
      rw [Finset.card_singleton]
      omega
    rw [Finset.powersetCard_eq_empty.mpr hc, Finset.sum_empty, mul_zero]

/-- Inclusion–exclusion over the empty collection evaluates to 0. -/
theorem probIE_empty_collection (N : Nat) (p : Nat → ℚ) :
    probIE N p (∅ : Finset CutSet) = 0 := by
  unfold probIE
  refine Finset.sum_eq_zero fun k _ => ?_
  have hc : (∅ : Finset CutSet).card < k + 1 := by
    rw [Finset.card_empty]
    omega
  rw [Finset.powersetCard_eq_empty.mpr hc, Finset.sum_empty, mul_zero]

/-- Membership in the subsumption filter yields minimality against the
whole input collection. -/
theorem subsume_no_proper_subset (S : Finset CutSet) (c : CutSet)
    (hc : c ∈ subsume S) : c ∈ S ∧ ∀ D ∈ S, ¬ D ⊂ c := by
  unfold subsume at hc
  exact Finset.mem_filter.mp hc

/-- The UNITY benchmark top `OR(a, NOT a)` is constantly true. -/
theorem aOrNotA_const_true : ∀ σ, evalT σ aOrNotA = true := by
  intro σ
  cases h : σ 0 <;>
    simp [aOrNotA, gateL, FList.ofList, evalT, evalL, applyOp, h]

/-- The NULL benchmark top `AND(a, NOT a)` is constantly false. -/
theorem aAndNotA_const_false : ∀ σ, evalT σ aAndNotA = false := by
  intro σ
  cases h : σ 0 <;>
    simp [aAndNotA, gateL, FList.ofList, evalT, evalL, applyOp, h]

/-- C1: a model whose top reduces under preprocessing to constant TRUE
(its Boolean function is constantly true, e.g. `OR(a, NOT a)` or a
tautology forced by house events) yields exactly one minimal cut set,
the empty set, and top-event probability 1; a top reducing to constant
FALSE (e.g. `AND(a, NOT a)`) yields the empty collection of minimal cut
sets and probability 0. -/
theorem claim_C1_unity_null (t : FTree) (p : Nat → ℚ) (N : Nat)
    (hN : 1 ≤ N) :
    ((∀ σ, evalT σ t = true) →
      minCutSets t = {(∅ : CutSet)} ∧ probIE N p (minCutSets t) = 1) ∧
    ((∀ σ, evalT σ t = false) →
      minCutSets t = (∅ : Finset CutSet) ∧ probIE N p (minCutSets t) = 0) := by
  constructor
  · intro h
    have hm := minCutSets_of_constTrue t h
    exact ⟨hm, by rw [hm]; exact probIE_singleton_empty N p hN⟩
  · intro h
    have hm := minCutSets_of_constFalse t h
    exact ⟨hm, by rw [hm]; exact probIE_empty_collection N p⟩

/-- Witness for C1 at the benchmark inputs `OR(a, NOT a)` and
`AND(a, NOT a)` with the default `num_sums = 7`. -/
theorem claim_C1_unity_null_witness :
    (minCutSets aOrNotA = {(∅ : CutSet)} ∧
      probIE 7 pABC (minCutSets aOrNotA) = 1) ∧
    (minCutSets aAndNotA = (∅ : Finset CutSet) ∧
      probIE 7 pABC (minCutSets aAndNotA) = 0) :=
  ⟨(claim_C1_unity_null aOrNotA pABC 7 (by decide)).1 aOrNotA_const_true,
   (claim_C1_unity_null aAndNotA pABC 7 (by decide)).2 aAndNotA_const_false⟩

/-- C2: the emitted collection of minimal cut sets never contains a
proper superset (as a set of signed literals) of another emitted set,
and for the benchmark top `OR(a, AND(b, NOT a))` the minimal cut sets
are exactly `{a}` and `{b}`. -/
theorem claim_C2_minimality :
    (∀ t : FTree, ∀ c ∈ minCutSets t, ∀ d ∈ minCutSets t, ¬ d ⊂ c) ∧
    minCutSets aOrNotAB = {{0}, {2}} := by
  constructor
  · intro t c hc d hd
    unfold minCutSets at hc hd
    split_ifs at hc hd with h1 h2
    · rw [Finset.mem_singleton.mp hc, Finset.mem_singleton.mp hd]
      exact fun hss => (lt_irrefl _) hss
    · exact absurd hc (Finset.not_mem_empty c)
    · have h3 := subsume_no_proper_subset _ c hc
      have h4 := subsume_no_proper_subset _ d hd
      exact h3.2 d h4.1
  · decide

/-- Witness for C2: at the benchmark `OR(a, AND(b, NOT a))`, the emitted
set `{a}` admits no proper-subset relation with the emitted set `{b}`. -/
theorem claim_C2_minimality_witness :
    ({0} : CutSet) ∈ minCutSets aOrNotAB ∧ ¬ ({2} : CutSet) ⊂ ({0} : CutSet) :=
  ⟨by decide,
   claim_C2_minimality.1 aOrNotAB {0} (by decide) {2} (by decide)⟩

/-- C3: for the benchmark top `XOR(a,b,c)` with probabilities 0.1, 0.2,
0.3, the analysis emits exactly the 4 odd-parity signed patterns
`{a,b,c}`, `{a,¬b,¬c}`, `{¬a,b,¬c}`, `{¬a,¬b,c}` and the total
probability is 0.404. -/
theorem claim_C3_xor_abc :
    minCutSets xorTree = {{0, 2, 4}, {0, 3, 5}, {1, 2, 5}, {1, 3, 4}} ∧
    (minCutSets xorTree).card = 4 ∧
    probIE 7 pABC (minCutSets xorTree) = 101/250 :=
  ⟨by decide, by decide, by decide!⟩

/-- C4: for the benchmark top `ATLEAST(2; a,b,c)` the expansion forks
one candidate per 2-combination of the arguments, the minimal cut sets
are exactly `{a,b}`, `{a,c}`, `{b,c}`, and the total probability is
0.098. -/
theorem claim_C4_atleast :
    (expandT atleastTree).1 = {{0, 2}, {0, 4}, {2, 4}} ∧
    minCutSets atleastTree = {{0, 2}, {0, 4}, {2, 4}} ∧
    probIE 7 pABC (minCutSets atleastTree) = 49/500 :=
  ⟨by decide, by decide, by decide!⟩

/-- C7: with CCF and probability analysis enabled on the beta-factor
benchmark of 3 pumps and 3 valves, the expansion yields exactly the 10
expected minimal cut sets and the total probability is within `1e-5` of
0.04308. -/
theorem claim_C7_beta_factor_ccf :
    minCutSets betaFactorTree = betaFactorMcs ∧
    betaFactorMcs.card = 10 ∧
    |probIE 7 pBetaFactor betaFactorMcs - 4308/100000| < 1/100000 :=
  ⟨by decide!, by decide, by decide!⟩

/-- C5: the minimal-cut-set collection is a function of the Boolean
structure alone: runs differing only in probability data (e.g. the
derived probabilities of different CCF factor models over the same group
structure) produce identical MCS collections, while their total
probabilities differ (demonstrated on the beta-factor CCF benchmark with
`num_sums = 3` as in the factor-model tests). -/
theorem claim_C5_mcs_structure_only :
    (∀ (t : FTree) (p1 p2 : Nat → ℚ) (N1 N2 : Nat),
      (analysisRun t p1 N1).1 = (analysisRun t p2 N2).1) ∧
    (analysisRun betaFactorTree pBetaFactor 3).1 =
      (analysisRun betaFactorTree pPhiFactor 3).1 ∧
    (analysisRun betaFactorTree pBetaFactor 3).2 ≠
      (analysisRun betaFactorTree pPhiFactor 3).2 :=
  ⟨fun _ _ _ _ _ => rfl, rfl, by decide!⟩

/-- C8: `Analyze` runs at most once per instance: after a successful
first call, a second call on the resulting state produces a logic error,
and the results vector computed by the first call is exactly the
per-target analysis output (unchanged by the failing second call, which
returns no new state). -/
theorem claim_C8_analyze_once (targets : List FTree)
    (s1 : RiskAnalysisState)
    (h : Analyze targets initRiskAnalysis = .ok s1) :
    Analyze targets s1 = .error .logic ∧
    s1.results = runResults targets := by
  unfold Analyze initRiskAnalysis at h
  simp only [Bool.false_eq_true, if_false, Except.ok.injEq] at h
  subst h
  unfold Analyze
  exact ⟨rfl, rfl⟩

/-- Witness for C8 at a one-target model. -/
theorem claim_C8_analyze_once_witness :
    Analyze [abcTree] ⟨true, runResults [abcTree]⟩ = .error .logic ∧
    (RiskAnalysisState.mk true (runResults [abcTree])).results =
      runResults [abcTree] :=
  claim_C8_analyze_once [abcTree] ⟨true, runResults [abcTree]⟩ rfl

/-- C9: a fault tree with more than one parentless gate fails validation
with a validation error; a fault tree with exactly one parentless gate
passes validation. -/
theorem claim_C9_single_top (ft : FaultTree) :
    (1 < (topGates ft).length → Validate ft = .error .validation) ∧
    ((topGates ft).length = 1 → Validate ft = .ok ()) := by
  constructor
  · intro h
    unfold Validate
    rw [if_neg (by omega)]
  · intro h
    unfold Validate
    rw [if_pos h]

/-- Witness for C9 at the `MultipleTopEvents` tree (two parentless
gates) and at a single-top chain. -/
theorem claim_C9_single_top_witness :
    (1 < (topGates multiTopFT).length ∧
      Validate multiTopFT = .error .validation) ∧
    ((topGates chainFT).length = 1 ∧ Validate chainFT = .ok ()) :=
  ⟨⟨by decide, (claim_C9_single_top multiTopFT).1 (by decide)⟩,
   ⟨by decide, (claim_C9_single_top chainFT).2 (by decide)⟩⟩

/-- C10: a fault tree whose formulas reference a generic event (neither
gate nor primary event) still passes `Validate` (provided it has exactly
one top), and the defect is only caught by `SetupForAnalysis`, which
produces a logic error. -/
theorem claim_C10_setup_for_analysis (ft : FaultTree)
    (h1 : (topGates ft).length = 1)
    (h2 : ∃ g ∈ ft.gates, ∃ r ∈ g.args, isGenericRef r = true) :
    Validate ft = .ok () ∧ SetupForAnalysis ft = .error .logic := by
  constructor
  · unfold Validate
    rw [if_pos h1]
  · obtain ⟨g, hg, r, hr, hgen⟩ := h2
    unfold SetupForAnalysis
    rw [if_neg]
    simp only [List.all_eq_true, Bool.not_eq_eq_eq_not, Bool.not_true]
    intro hall
    have := hall g hg r hr
    rw [hgen] at this
    exact Bool.noConfusion this

/-- Witness for C10 at the `SetupForAnalysis` test tree. -/
theorem claim_C10_setup_for_analysis_witness :
    Validate goldenFT = .ok () ∧ SetupForAnalysis goldenFT = .error .logic :=
  claim_C10_setup_for_analysis goldenFT (by decide) (by decide)

/-! Elementary bounds. -/

theorem probLit_nonneg (p : Nat → ℚ) (hp : ∀ i, 0 ≤ p i ∧ p i ≤ 1) (l : Nat) :
    0 ≤ probLit p l := by
  unfold probLit
  split
  · exact (hp _).1
  · have := (hp (l / 2)).2
    linarith

theorem probLit_le_one (p : Nat → ℚ) (hp : ∀ i, 0 ≤ p i ∧ p i ≤ 1) (l : Nat) :
    probLit p l ≤ 1 := by
  unfold probLit
  split
  · exact (hp _).2
  · have := (hp (l / 2)).1
    linarith

theorem probCut_nonneg (p : Nat → ℚ) (hp : ∀ i, 0 ≤ p i ∧ p i ≤ 1)
    (C : CutSet) : 0 ≤ probCut p C := by
  unfold probCut
  split
  · exact Finset.prod_nonneg fun l _ => probLit_nonneg p hp l
  · exact le_refl 0

theorem probCut_le_one (p : Nat → ℚ) (hp : ∀ i, 0 ≤ p i ∧ p i ≤ 1)
    (C : CutSet) : probCut p C ≤ 1 := by
  unfold probCut
  split
  · exact Finset.prod_le_one (fun l _ => probLit_nonneg p hp l)
      (fun l _ => probLit_le_one p hp l)
  · exact zero_le_one

/-- A cut set of positive literals has consistent sign structure and its
probability is the plain product of its literal probabilities. -/
theorem probCut_of_pos (p : Nat → ℚ) (C : CutSet)
    (hpos : ∀ l ∈ C, l % 2 = 0) :
    probCut p C = ∏ l ∈ C, probLit p l := by
  unfold probCut
  rw [if_pos]
  rw [consistentB, decide_eq_true_eq]
  intro l hl hmem
  have h1 := hpos l hl
  have h2 := hpos (lcompl l) hmem
  unfold lcompl at h2
  rw [if_pos h1] at h2
  omega

/-- The product of `1 - q` dominates `1 - ∑ q` for `q` in `[0,1]`. -/
theorem one_sub_sum_le_prod_one_sub (s : Finset CutSet) (q : CutSet → ℚ)
    (h0 : ∀ a ∈ s, 0 ≤ q a) (h1 : ∀ a ∈ s, q a ≤ 1) :
    1 - ∑ a ∈ s, q a ≤ ∏ a ∈ s, (1 - q a) := by
  induction s using Finset.induction_on with
  | empty => simp
  | @insert a s ha ih =>
    rw [Finset.sum_insert ha, Finset.prod_insert ha]
    have hq0 : 0 ≤ q a := h0 a (Finset.mem_insert_self a s)
    have hq1 : q a ≤ 1 := h1 a (Finset.mem_insert_self a s)
    have ih2 := ih (fun b hb => h0 b (Finset.mem_insert_of_mem hb))
      (fun b hb => h1 b (Finset.mem_insert_of_mem hb))
    have hs0 : 0 ≤ ∑ b ∈ s, q b :=
      Finset.sum_nonneg fun b hb => h0 b (Finset.mem_insert_of_mem hb)
    nlinarith [mul_le_mul_of_nonneg_left ih2 (by linarith : (0:ℚ) ≤ 1 - q a)]

/-! Expectation lemmas. -/

theorem weight_nonneg (p : Nat → ℚ) (hp : ∀ i, 0 ≤ p i ∧ p i ≤ 1)
    (V A : Finset Nat) : 0 ≤ weight p V A := by
  refine Finset.prod_nonneg fun i _ => ?_
  split
  · exact (hp i).1
  · have := (hp i).2
    linarith

theorem Ew_empty_base (p : Nat → ℚ) (f : Finset Nat → ℚ) :
    Ew p ∅ f = f ∅ := by
  simp [Ew, weight]

theorem Ew_congr (p : Nat → ℚ) (V : Finset Nat) (f g : Finset Nat → ℚ)
    (h : ∀ A ∈ V.powerset, f A = g A) : Ew p V f = Ew p V g :=
  Finset.sum_congr rfl fun A hA => by rw [h A hA]

theorem weight_insert_not_mem (p : Nat → ℚ) (V A : Finset Nat)
    (ha : a ∉ V) (hA : A ⊆ V) :
    weight p (insert a V) A = (1 - p a) * weight p V A := by
  unfold weight
  rw [Finset.prod_insert ha, if_neg (fun h => ha (hA h))]

theorem weight_insert_mem (p : Nat → ℚ) (V A : Finset Nat)
    (ha : a ∉ V) (hA : A ⊆ V) :
    weight p (insert a V) (insert a A) = p a * weight p V A := by
  unfold weight
  rw [Finset.prod_insert ha, if_pos (Finset.mem_insert_self a A)]
  congr 1
  refine Finset.prod_congr rfl fun i hi => ?_
  have hia : i ≠ a := fun h => ha (h ▸ hi)
  by_cases hmem : i ∈ A
  · rw [if_pos hmem, if_pos (Finset.mem_insert_of_mem hmem)]
  · rw [if_neg hmem, if_neg (fun h => hmem ((Finset.mem_insert.mp h).resolve_left hia))]

theorem Ew_decomp (p : Nat → ℚ) (V : Finset Nat) (f : Finset Nat → ℚ)
    (ha : a ∉ V) :
    Ew p (insert a V) f =
      p a * Ew p V (fun A => f (insert a A)) + (1 - p a) * Ew p V f := by
  unfold Ew
  rw [Finset.powerset_insert, Finset.sum_union]
  · have h1 : ∑ A ∈ V.powerset, weight p (insert a V) A * f A =
        (1 - p a) * ∑ A ∈ V.powerset, weight p V A * f A := by
      rw [Finset.mul_sum]
      refine Finset.sum_congr rfl fun A hA => ?_
      rw [weight_insert_not_mem p V A ha (Finset.mem_powerset.mp hA), mul_assoc]
    have h2 : ∑ A ∈ V.powerset.image (insert a), weight p (insert a V) A * f A =
        p a * ∑ A ∈ V.powerset, weight p V A * f (insert a A) := by
      rw [Finset.sum_image, Finset.mul_sum]
      · refine Finset.sum_congr rfl fun A hA => ?_
        rw [weight_insert_mem p V A ha (Finset.mem_powerset.mp hA), mul_assoc]
      · intro A hA B hB hAB
        have hAa : a ∉ A := fun h => ha (Finset.mem_powerset.mp hA h)
        have hBa : a ∉ B := fun h => ha (Finset.mem_powerset.mp hB h)
        have := congrArg (fun s => Finset.erase s a) hAB
        simpa [Finset.erase_insert hAa, Finset.erase_insert hBa] using this
    rw [h1, h2]
    ring
  · rw [Finset.disjoint_left]
    intro A hA hA2
    obtain ⟨B, hB, rfl⟩ := Finset.mem_image.mp hA2
    exact ha (Finset.mem_powerset.mp hA (Finset.mem_insert_self a B))

theorem Ew_const (p : Nat → ℚ) (V : Finset Nat) (c : ℚ) :
    Ew p V (fun _ => c) = c := by
  induction V using Finset.induction_on with
  | empty => exact Ew_empty_base p _
  | @insert a V ha ih =>
    rw [Ew_decomp p V _ ha]
    simp only [ih]
    ring

theorem Ew_add (p : Nat → ℚ) (V : Finset Nat) (f g : Finset Nat → ℚ) :
    Ew p V (fun A => f A + g A) = Ew p V f + Ew p V g := by
  unfold Ew
  rw [← Finset.sum_add_distrib]
  exact Finset.sum_congr rfl fun A _ => by ring

theorem Ew_sub (p : Nat → ℚ) (V : Finset Nat) (f g : Finset Nat → ℚ) :
    Ew p V (fun A => f A - g A) = Ew p V f - Ew p V g := by
  unfold Ew
  rw [← Finset.sum_sub_distrib]
  exact Finset.sum_congr rfl fun A _ => by ring

theorem Ew_mono (p : Nat → ℚ) (hp : ∀ i, 0 ≤ p i ∧ p i ≤ 1)
    (V : Finset Nat) (f g : Finset Nat → ℚ) (h : ∀ A, f A ≤ g A) :
    Ew p V f ≤ Ew p V g :=
  Finset.sum_le_sum fun A _ =>
    mul_le_mul_of_nonneg_left (h A) (weight_nonneg p hp V A)

theorem Ew_nonneg (p : Nat → ℚ) (hp : ∀ i, 0 ≤ p i ∧ p i ≤ 1)
    (V : Finset Nat) (f : Finset Nat → ℚ) (h : ∀ A, 0 ≤ f A) :
    0 ≤ Ew p V f := by
  have := Ew_mono p hp V (fun _ => 0) f (fun A => h A)
  rw [Ew_const] at this
  exact this

/-- The Harris correlation inequality on the finite product measure:
the expectation of a product of monotone functions dominates the product
of their expectations. -/
theorem harris_ineq (p : Nat → ℚ) (hp : ∀ i, 0 ≤ p i ∧ p i ≤ 1)
    (V : Finset Nat) :
    ∀ f g : Finset Nat → ℚ, MonoF f → MonoF g →
      Ew p V f * Ew p V g ≤ Ew p V (fun A => f A * g A) := by
  induction V using Finset.induction_on with
  | empty =>
    intro f g hf hg
    rw [Ew_empty_base, Ew_empty_base, Ew_empty_base]
  | @insert a V ha ih =>
    intro f g hf hg
    rw [Ew_decomp p V f ha, Ew_decomp p V g ha, Ew_decomp p V _ ha]
    have hf1 : MonoF fun A => f (insert a A) := fun A B hAB =>
      hf _ _ (Finset.insert_subset_insert a hAB)
    have hg1 : MonoF fun A => g (insert a A) := fun A B hAB =>
      hg _ _ (Finset.insert_subset_insert a hAB)
    have h1 := ih (fun A => f (insert a A)) (fun A => g (insert a A)) hf1 hg1
    have h0 := ih f g hf hg
    have hF : Ew p V f ≤ Ew p V (fun A => f (insert a A)) :=
      Ew_mono p hp V _ _ fun A => hf A (insert a A) (Finset.subset_insert a A)
    have hG : Ew p V g ≤ Ew p V (fun A => g (insert a A)) :=
      Ew_mono p hp V _ _ fun A => hg A (insert a A) (Finset.subset_insert a A)
    have hpa := (hp a).1
    have hqa : (0:ℚ) ≤ 1 - p a := by have := (hp a).2; linarith
    nlinarith [mul_le_mul_of_nonneg_left h1 hpa,
      mul_le_mul_of_nonneg_left h0 hqa,
      mul_nonneg (mul_nonneg hpa hqa)
        (mul_nonneg (by linarith : (0:ℚ) ≤ Ew p V (fun A => f (insert a A)) - Ew p V f)
          (by linarith : (0:ℚ) ≤ Ew p V (fun A => g (insert a A)) - Ew p V g))]

/-! Indicator functions of positive cut sets. -/

theorem indCut_nonneg (C : CutSet) (A : Finset Nat) : 0 ≤ indCut C A := by
  unfold indCut
  split
  · exact zero_le_one
  · exact le_refl 0

theorem indCut_le_one (C : CutSet) (A : Finset Nat) : indCut C A ≤ 1 := by
  unfold indCut
  split
  · exact le_refl 1
  · exact zero_le_one

theorem satCutB_mono (C : CutSet) (hpos : ∀ l ∈ C, l % 2 = 0)
    (A B : Finset Nat) (hAB : A ⊆ B) (h : satCutB C A = true) :
    satCutB C B = true := by
  rw [satCutB, decide_eq_true_eq] at h ⊢
  intro l hl
  have h1 := h l hl
  have h2 := hpos l hl
  rw [satLitB, if_pos h2, decide_eq_true_eq] at h1 ⊢
  exact hAB h1

theorem indCut_mono (C : CutSet) (hpos : ∀ l ∈ C, l % 2 = 0) :
    MonoF (indCut C) := by
  intro A B hAB
  unfold indCut
  by_cases h : satCutB C A = true
  · rw [if_pos h, if_pos (satCutB_mono C hpos A B hAB h)]
  · rw [if_neg h]
    split
    · exact zero_le_one
    · exact le_refl 0

/-- The expectation of the indicator of a positive cut set is the
product of its literal probabilities (independence). -/
theorem Ew_indCut (p : Nat → ℚ) :
    ∀ (V : Finset Nat) (C : CutSet), (∀ l ∈ C, l % 2 = 0) →
      varsCut C ⊆ V → Ew p V (indCut C) = ∏ l ∈ C, probLit p l := by
  intro V
  induction V using Finset.induction_on with
  | empty =>
    intro C hpos hsub
    have hC : C = ∅ := by
      rcases Finset.eq_empty_or_nonempty C with h | h
      · exact h
      · obtain ⟨l, hl⟩ := h
        exact absurd (hsub (Finset.mem_image_of_mem _ hl)) (Finset.not_mem_empty _)
    subst hC
    rw [Ew_empty_base]
    simp [indCut, satCutB]
  | @insert a V ha ih =>
    intro C hpos hsub
    rw [Ew_decomp p V _ ha]
    by_cases hmem : 2 * a ∈ C
    · have hera : varsCut (C.erase (2 * a)) ⊆ V := by
        intro x hx
        obtain ⟨l, hl, rfl⟩ := Finset.mem_image.mp hx
        have hl2 := Finset.mem_of_mem_erase hl
        have hla : l ≠ 2 * a := Finset.ne_of_mem_erase hl
        have hx2 := hsub (Finset.mem_image_of_mem _ hl2)
        rcases Finset.mem_insert.mp hx2 with h | h
        · exfalso
          have := hpos l hl2
          omega
        · exact h
      have h1 : Ew p V (fun A => indCut C (insert a A)) =
          Ew p V (indCut (C.erase (2 * a))) := by
        refine Ew_congr p V _ _ fun A hA => ?_
        unfold indCut
        have hiff : satCutB C (insert a A) = satCutB (C.erase (2 * a)) A := by
          rw [satCutB, satCutB]
          rw [decide_eq_decide]
          constructor
          · intro h l hl
            have hl2 := Finset.mem_of_mem_erase hl
            have hla : l ≠ 2 * a := Finset.ne_of_mem_erase hl
            have h3 := h l hl2
            have h4 := hpos l hl2
            rw [satLitB, if_pos h4, decide_eq_true_eq] at h3 ⊢
            rcases Finset.mem_insert.mp h3 with h5 | h5
            · exfalso
              omega
            · exact h5
          · intro h l hl
            have h4 := hpos l hl
            rw [satLitB, if_pos h4, decide_eq_true_eq]
            by_cases hla : l = 2 * a
            · subst hla
              have : 2 * a / 2 = a := by omega
              rw [this]
              exact Finset.mem_insert_self a A
            · have h3 := h l (Finset.mem_erase.mpr ⟨hla, hl⟩)
              rw [satLitB, if_pos h4, decide_eq_true_eq] at h3
              exact Finset.mem_insert_of_mem h3
        rw [hiff]
      have h2 : Ew p V (indCut C) = 0 := by
        have h3 : Ew p V (indCut C) = Ew p V (fun _ => 0) := by
          refine Ew_congr p V _ _ fun A hA => ?_
          unfold indCut
          rw [if_neg]
          intro hsat
          rw [satCutB, decide_eq_true_eq] at hsat
          have h4 := hsat (2 * a) hmem
          rw [satLitB, if_pos (by omega), decide_eq_true_eq] at h4
          have : 2 * a / 2 = a := by omega
          rw [this] at h4
          exact ha (Finset.mem_powerset.mp hA h4)
        rw [h3, Ew_const]
      rw [h1, h2, ih (C.erase (2 * a)) (fun l hl => hpos l (Finset.mem_of_mem_erase hl)) hera]
      rw [← Finset.mul_prod_erase C _ hmem]
      have hpl : probLit p (2 * a) = p a := by
        rw [probLit, if_pos (by omega)]
        congr 1
        omega
      rw [hpl]
      ring
    · have hnva : a ∉ varsCut C := by
        intro hx
        obtain ⟨l, hl, hleq⟩ := Finset.mem_image.mp hx
        have := hpos l hl
        have : l = 2 * a := by omega
        exact hmem (this ▸ hl)
      have hsubV : varsCut C ⊆ V := by
        intro x hx
        rcases Finset.mem_insert.mp (hsub hx) with h | h
        · exact absurd (h ▸ hx) hnva
        · exact h
      have h1 : Ew p V (fun A => indCut C (insert a A)) = Ew p V (indCut C) := by
        refine Ew_congr p V _ _ fun A hA => ?_
        unfold indCut
        have hiff : satCutB C (insert a A) = satCutB C A := by
          rw [satCutB, satCutB]
          rw [decide_eq_decide]
          constructor
          · intro h l hl
            have h4 := hpos l hl
            have h3 := h l hl
            rw [satLitB, if_pos h4, decide_eq_true_eq] at h3 ⊢
            rcases Finset.mem_insert.mp h3 with h5 | h5
            · exfalso
              apply hnva
              rw [← h5]
              exact Finset.mem_image_of_mem _ hl
            · exact h5
          · intro h l hl
            have h4 := hpos l hl
            have h3 := h l hl
            rw [satLitB, if_pos h4, decide_eq_true_eq] at h3 ⊢
            exact Finset.mem_insert_of_mem h3
        rw [hiff]
      rw [h1, ih C hpos hsubV]
      ring

/-! The none-occur product and its properties. -/

theorem noneInd_nonneg (S : Finset CutSet) (A : Finset Nat) :
    0 ≤ noneInd S A :=
  Finset.prod_nonneg fun C _ => by
    have := indCut_le_one C A
    linarith

theorem noneInd_le_one (S : Finset CutSet) (A : Finset Nat) :
    noneInd S A ≤ 1 :=
  Finset.prod_le_one
    (fun C _ => by have := indCut_le_one C A; linarith)
    (fun C _ => by have := indCut_nonneg C A; linarith)

theorem noneInd_antitone (S : Finset CutSet)
    (hpos : ∀ C ∈ S, ∀ l ∈ C, l % 2 = 0)
    (A B : Finset Nat) (hAB : A ⊆ B) : noneInd S B ≤ noneInd S A :=
  Finset.prod_le_prod
    (fun C _ => by have := indCut_le_one C B; linarith)
    (fun C hC => by
      have := indCut_mono C (hpos C hC) A B hAB
      linarith)

/-- The Esary–Proschan bound: the probability that no cut set occurs
dominates the product of the individual non-occurrence probabilities. -/
theorem Ew_noneInd_ge (p : Nat → ℚ) (hp : ∀ i, 0 ≤ p i ∧ p i ≤ 1)
    (V : Finset Nat) :
    ∀ S : Finset CutSet, (∀ C ∈ S, ∀ l ∈ C, l % 2 = 0) →
      (∀ C ∈ S, varsCut C ⊆ V) →
      ∏ C ∈ S, (1 - ∏ l ∈ C, probLit p l) ≤ Ew p V (noneInd S) := by
  intro S
  induction S using Finset.induction_on with
  | empty =>
    intro _ _
    unfold noneInd
    simp only [Finset.prod_empty]
    rw [Ew_const]
  | @insert C0 S hC0 ih =>
    intro hpos hvars
    have hposC : ∀ l ∈ C0, l % 2 = 0 := hpos C0 (Finset.mem_insert_self _ _)
    have hposS : ∀ C ∈ S, ∀ l ∈ C, l % 2 = 0 := fun C hC =>
      hpos C (Finset.mem_insert_of_mem hC)
    have hvarsC : varsCut C0 ⊆ V := hvars C0 (Finset.mem_insert_self _ _)
    have hvarsS : ∀ C ∈ S, varsCut C ⊆ V := fun C hC =>
      hvars C (Finset.mem_insert_of_mem hC)
    have hstep : Ew p V (noneInd (insert C0 S)) =
        Ew p V (fun A => (1 - indCut C0 A) * noneInd S A) := by
      refine Ew_congr p V _ _ fun A _ => ?_
      unfold noneInd
      rw [Finset.prod_insert hC0]
    rw [hstep]
    have hsplit : Ew p V (fun A => (1 - indCut C0 A) * noneInd S A) =
        Ew p V (noneInd S) - Ew p V (indCut C0)
          + Ew p V (fun A => indCut C0 A * (1 - noneInd S A)) := by
      have h1 : Ew p V (fun A => (1 - indCut C0 A) * noneInd S A) =
          Ew p V (fun A => noneInd S A - indCut C0 A
            + indCut C0 A * (1 - noneInd S A)) :=
        Ew_congr p V _ _ fun A _ => by ring
      rw [h1, Ew_add, Ew_sub]
    have hharris := harris_ineq p hp V (indCut C0) (fun A => 1 - noneInd S A)
      (indCut_mono C0 hposC)
      (fun A B hAB => by
        dsimp only
        have := noneInd_antitone S hposS A B hAB
        linarith)
    have hEsub : Ew p V (fun A => 1 - noneInd S A) = 1 - Ew p V (noneInd S) := by
      rw [show (fun A => 1 - noneInd S A) = fun A => (fun _ => (1:ℚ)) A - noneInd S A
        from rfl, Ew_sub, Ew_const]
    have hq0 : Ew p V (indCut C0) = ∏ l ∈ C0, probLit p l :=
      Ew_indCut p V C0 hposC hvarsC
    have hq0le : ∏ l ∈ C0, probLit p l ≤ 1 :=
      Finset.prod_le_one (fun l _ => probLit_nonneg p hp l)
        (fun l _ => probLit_le_one p hp l)
    have hIH := ih hposS hvarsS
    have hprodS : (0:ℚ) ≤ ∏ C ∈ S, (1 - ∏ l ∈ C, probLit p l) := by
      refine Finset.prod_nonneg fun C hC => ?_
      have : ∏ l ∈ C, probLit p l ≤ 1 :=
        Finset.prod_le_one (fun l _ => probLit_nonneg p hp l)
          (fun l _ => probLit_le_one p hp l)
      linarith
    have hmul := mul_le_mul_of_nonneg_left hIH
      (by linarith : (0:ℚ) ≤ 1 - ∏ l ∈ C0, probLit p l)
    have hh2 : (∏ l ∈ C0, probLit p l) * (1 - Ew p V (noneInd S)) ≤
        Ew p V (fun A => indCut C0 A * (1 - noneInd S A)) := by
      have h3 := hharris
      rw [hEsub, hq0] at h3
      simpa using h3
    rw [hsplit, Finset.prod_insert hC0, hq0]
    nlinarith [hh2, hmul]

/-- Pointwise: the indicator of the disjunction is `1` minus the
none-occur product. -/
theorem unionInd_eq_one_sub (S : Finset CutSet) (A : Finset Nat) :
    (if ∃ C ∈ S, satCutB C A = true then (1:ℚ) else 0) = 1 - noneInd S A := by
  by_cases h : ∃ C ∈ S, satCutB C A = true
  · rw [if_pos h]
    obtain ⟨C, hC, hsat⟩ := h
    unfold noneInd
    rw [Finset.prod_eq_zero hC]
    · ring
    · rw [indCut, if_pos hsat]
      ring
  · rw [if_neg h]
    unfold noneInd
    rw [Finset.prod_eq_one]
    · ring
    · intro C hC
      push_neg at h
      rw [indCut, if_neg (by simpa using h C hC)]
      ring

/-- The exact probability of the disjunction as the complement of the
none-occur expectation. -/
theorem exactProb_eq_one_sub (p : Nat → ℚ) (S : Finset CutSet) :
    exactProb p S = 1 - Ew p (varsColl S) (noneInd S) := by
  unfold exactProb
  rw [Ew_congr p (varsColl S) _ (fun A => 1 - noneInd S A)
    (fun A _ => unionInd_eq_one_sub S A)]
  rw [show (fun A => 1 - noneInd S A) =
    fun A => (fun _ => (1:ℚ)) A - noneInd S A from rfl, Ew_sub, Ew_const]

theorem exactProb_nonneg (p : Nat → ℚ) (hp : ∀ i, 0 ≤ p i ∧ p i ≤ 1)
    (S : Finset CutSet) : 0 ≤ exactProb p S := by
  unfold exactProb
  refine Ew_nonneg p hp _ _ fun A => ?_
  split
  · exact zero_le_one
  · exact le_refl 0

/-- C6: for a non-empty collection of positive-literal cut sets with
independent basic-event probabilities in `[0,1]`, the rare-event
approximation dominates the min-cut upper bound, which dominates the
exact probability of the disjunction of the cut sets, which is
non-negative. -/
theorem claim_C6_quantification_order (S : Finset CutSet) (p : Nat → ℚ)
    (hne : S.Nonempty)
    (hpos : ∀ C ∈ S, ∀ l ∈ C, l % 2 = 0)
    (hp : ∀ i, 0 ≤ p i ∧ p i ≤ 1) :
    mcub p S ≤ rareEvent p S ∧ exactProb p S ≤ mcub p S ∧
      0 ≤ exactProb p S := by
  refine ⟨?_, ?_, exactProb_nonneg p hp S⟩
  · unfold mcub rareEvent
    have := one_sub_sum_le_prod_one_sub S (probCut p)
      (fun C _ => probCut_nonneg p hp C) (fun C _ => probCut_le_one p hp C)
    linarith
  · rw [exactProb_eq_one_sub]
    unfold mcub
    have hEP := Ew_noneInd_ge p hp (varsColl S) S hpos
      (fun C hC x hx => by
        rw [varsColl, Finset.mem_sup]
        exact ⟨C, hC, hx⟩)
    have hcong : ∏ C ∈ S, (1 - probCut p C) =
        ∏ C ∈ S, (1 - ∏ l ∈ C, probLit p l) :=
      Finset.prod_congr rfl fun C hC => by rw [probCut_of_pos p C (hpos C hC)]
    rw [hcong]
    linarith

/-- Witness for C6 at the two-cut-set collection `{{a}, {b}}` with all
probabilities one half. -/
theorem claim_C6_quantification_order_witness :
    (({{0}, {2}} : Finset CutSet).Nonempty ∧
      (∀ C ∈ ({{0}, {2}} : Finset CutSet), ∀ l ∈ C, l % 2 = 0)) ∧
    (mcub pHalf {{0}, {2}} ≤ rareEvent pHalf {{0}, {2}} ∧
      exactProb pHalf {{0}, {2}} ≤ mcub pHalf {{0}, {2}} ∧
      0 ≤ exactProb pHalf {{0}, {2}}) :=
  ⟨⟨by decide, by decide⟩,
   claim_C6_quantification_order {{0}, {2}} pHalf (by decide) (by decide)
     (fun i => by constructor <;> norm_num [pHalf])⟩

end Scram
